import Mathlib

/-!
Shallow embedding of the chunking engine in `src/utils/chunker.py`.

Text is modelled as `List Char`.  Python `str.strip()` becomes `pyStrip`,
`str.split()` becomes `wsSplit`, `re.split(r'[.!?]+', ...)` becomes
`sentSplit` (splitting on each delimiter character; collapsing delimiter
runs only changes the empty fragments that the subsequent strip-filter
discards, so the filtered sentence list is identical), and
`re.split(r'\n\s*\n', ...)` becomes `paraSplit` (a state machine for the
greedy leftmost match: inside a maximal whitespace run containing at least
two newlines, the separator reaches from the first to the last newline).

Python integers that may be non-positive (`chunk_size`, `overlap`,
`max_chunk_size`, `min_chunk_size`) are modelled as `Int`.

The `while` loop of `chunk_text_by_size` does not always terminate
(see the non-termination theorem below), so it is embedded with an
explicit fuel parameter: `none` means the fuel ran out.  All other
functions are total exactly as in the source.
-/

/-- The whitespace characters of Python's `str.strip` / `\s` (ASCII part). -/
def isSpace (c : Char) : Bool :=
  c = ' ' || c = '\t' || c = '\n' || c = '\r' || c = '\x0b' || c = '\x0c'

/-- Convert a Lean string literal to the `List Char` text model. -/
def chars (s : String) : List Char :=
  s.data

/-- Python `str.strip()`: drop leading and trailing whitespace. -/
def pyStrip (s : List Char) : List Char :=
  ((s.dropWhile isSpace).reverse.dropWhile isSpace).reverse

/-- Worker for `wsSplit`; `acc` holds the current token reversed. -/
def wsSplitAux : List Char → List Char → List (List Char)
  | acc, [] => if acc = [] then [] else [acc.reverse]
  | acc, c :: rest =>
    if isSpace c then
      if acc = [] then wsSplitAux [] rest else acc.reverse :: wsSplitAux [] rest
    else wsSplitAux (c :: acc) rest

/-- Python `str.split()`: maximal runs of non-whitespace characters. -/
def wsSplit (s : List Char) : List (List Char) :=
  wsSplitAux [] s

/-- Sentence-terminal delimiter characters of `re.split(r'[.!?]+', ...)`. -/
def isSentDelim (c : Char) : Bool :=
  c = '.' || c = '!' || c = '?'

/-- Worker for `sentSplit`; `acc` holds the current fragment reversed. -/
def sentSplitAux : List Char → List Char → List (List Char)
  | acc, [] => [acc.reverse]
  | acc, c :: rest =>
    if isSentDelim c then acc.reverse :: sentSplitAux [] rest
    else sentSplitAux (c :: acc) rest

/-- `re.split(r'[.!?]+', text)` up to the empty fragments that the
strip-filter in `chunk_by_sentences` removes anyway. -/
def sentSplit (s : List Char) : List (List Char) :=
  sentSplitAux [] s

/-- Worker for `paraSplit`.  `acc` is the current fragment (reversed),
`sep` the pending separator candidate from its first newline through its
last newline (reversed), `tailWs` the whitespace seen after the last
newline (reversed), `nl` the number of newlines in `sep`. -/
def paraSplitAux (acc sep tailWs : List Char) (nl : Nat) : List Char → List (List Char)
  | [] =>
    if nl ≥ 2 then [acc.reverse, tailWs.reverse]
    else [(tailWs ++ sep ++ acc).reverse]
  | c :: rest =>
    if c = '\n' then paraSplitAux acc ('\n' :: (tailWs ++ sep)) [] (nl + 1) rest
    else if isSpace c then
      if nl = 0 then paraSplitAux (c :: acc) sep tailWs nl rest
      else paraSplitAux acc sep (c :: tailWs) nl rest
    else
      if nl ≥ 2 then acc.reverse :: paraSplitAux (c :: tailWs) [] [] 0 rest
      else paraSplitAux (c :: (tailWs ++ sep ++ acc)) [] [] 0 rest

/-- `re.split(r'\n\s*\n', text)`: a greedy separator match runs from the
first to the last newline of a maximal whitespace run holding two or more
newlines. -/
def paraSplit (s : List Char) : List (List Char) :=
  paraSplitAux [] [] [] 0 s

/-- Python `sep.join(items)`. -/
def joinSep (sep : List Char) : List (List Char) → List Char
  | [] => []
  | [w] => w
  | w :: ws => w ++ sep ++ joinSep sep ws

/-- Loop body of `chunk_by_words` (state: chunks, current_chunk as a word
list, current_size), lines 77-90 of `src/utils/chunker.py`. -/
def wordStep (max_chunk_size : Int) :
    List (List Char) × List (List Char) × Int → List Char →
    List (List Char) × List (List Char) × Int
  | (chunks, current_chunk, current_size), word =>
    let word_size : Int := (word.length : Int) + 1
    if current_size + word_size > max_chunk_size then
      if current_chunk ≠ [] then
        (chunks ++ [joinSep [' '] current_chunk], [word], (word.length : Int))
      else
        (chunks ++ [word], current_chunk, current_size)
    else
      (chunks, current_chunk ++ [word], current_size + word_size)

/-- `chunk_by_words` from `src/utils/chunker.py` (lines 67-95). -/
def chunk_by_words (text : List Char) (max_chunk_size : Int) : List (List Char) :=
  if text = [] then []
  else
    let fin := (wsSplit text).foldl (wordStep max_chunk_size) ([], [], 0)
    if fin.2.1 ≠ [] then fin.1 ++ [joinSep [' '] fin.2.1] else fin.1

/-- Loop body of `chunk_by_sentences` (state: chunks, current_chunk),
lines 43-60 of `src/utils/chunker.py`. -/
def sentStep (max_chunk_size : Int) :
    List (List Char) × List Char → List Char → List (List Char) × List Char
  | (chunks, current_chunk), sentence =>
    if (current_chunk.length : Int) + sentence.length + 1 > max_chunk_size then
      if current_chunk ≠ [] then
        (chunks ++ [pyStrip current_chunk], sentence)
      else
        if (sentence.length : Int) > max_chunk_size then
          (chunks ++ chunk_by_words sentence max_chunk_size, current_chunk)
        else
          (chunks ++ [sentence], current_chunk)
    else
      if current_chunk ≠ [] then (chunks, current_chunk ++ ('.' :: ' ' :: sentence))
      else (chunks, sentence)

/-- `chunk_by_sentences` from `src/utils/chunker.py` (lines 31-65). -/
def chunk_by_sentences (text : List Char) (max_chunk_size : Int) : List (List Char) :=
  if text = [] then []
  else
    let sentences := ((sentSplit text).map pyStrip).filter (· ≠ [])
    let fin := sentences.foldl (sentStep max_chunk_size) ([], [])
    if fin.2 ≠ [] then fin.1 ++ [pyStrip fin.2] else fin.1

/-- Loop body of `chunk_by_paragraphs` (state: chunks, current_chunk),
lines 109-126 of `src/utils/chunker.py`. -/
def paraStep (max_chunk_size : Int) :
    List (List Char) × List Char → List Char → List (List Char) × List Char
  | (chunks, current_chunk), paragraph =>
    if (current_chunk.length : Int) + paragraph.length + 2 > max_chunk_size then
      if current_chunk ≠ [] then
        (chunks ++ [pyStrip current_chunk], paragraph)
      else
        if (paragraph.length : Int) > max_chunk_size then
          (chunks ++ chunk_by_sentences paragraph max_chunk_size, current_chunk)
        else
          (chunks ++ [paragraph], current_chunk)
    else
      if current_chunk ≠ [] then (chunks, current_chunk ++ ('\n' :: '\n' :: paragraph))
      else (chunks, paragraph)

/-- `chunk_by_paragraphs` from `src/utils/chunker.py` (lines 97-131). -/
def chunk_by_paragraphs (text : List Char) (max_chunk_size : Int) : List (List Char) :=
  if text = [] then []
  else
    let paragraphs := ((paraSplit text).map pyStrip).filter (· ≠ [])
    let fin := paragraphs.foldl (paraStep max_chunk_size) ([], [])
    if fin.2 ≠ [] then fin.1 ++ [pyStrip fin.2] else fin.1

/-- Python slice `t[a:b]` for the non-negative indices reachable in
`chunk_text_by_size`. -/
def pySlice (t : List Char) (a b : Int) : List Char :=
  (t.drop a.toNat).take (b - a).toNat

/-- The `while start < text_length` loop of `chunk_text_by_size`
(lines 14-27 of `src/utils/chunker.py`), with explicit fuel; `none`
models a computation that is still running when the fuel is exhausted. -/
def sizeLoop (text : List Char) (chunk_size overlap : Int) :
    Nat → Int → Option (List (List Char))
  | 0, _ => none
  | fuel + 1, start =>
    if start < (text.length : Int) then
      let e :=
        if start + chunk_size > (text.length : Int) then (text.length : Int)
        else start + chunk_size
      let chunk := pyStrip (pySlice text start e)
      if e = (text.length : Int) then some [chunk]
      else
        let s1 := e - overlap
        let s2 := if s1 ≤ 0 then e else s1
        (sizeLoop text chunk_size overlap fuel s2).map (chunk :: ·)
    else some []

/-- `chunk_text_by_size` from `src/utils/chunker.py` (lines 5-29). -/
def chunk_text_by_size (text : List Char) (chunk_size overlap : Int) (fuel : Nat) :
    Option (List (List Char)) :=
  if text = [] ∨ chunk_size ≤ 0 then some []
  else (sizeLoop text chunk_size overlap fuel 0).map (List.filter (· ≠ []))

/-- The fallback test of `smart_chunking` (line 179 of
`src/utils/chunker.py`): all paragraph chunks below the minimum size and
more than one of them. -/
def smartFallback (text : List Char) (max_chunk_size min_chunk_size : Int) : Bool :=
  let paragraph_chunks := chunk_by_paragraphs text max_chunk_size
  paragraph_chunks.all (fun c => decide ((c.length : Int) < min_chunk_size)) &&
    decide (paragraph_chunks.length > 1)

/-- `smart_chunking` from `src/utils/chunker.py` (lines 170-192). -/
def smart_chunking (text : List Char) (max_chunk_size min_chunk_size : Int)
    (fuel : Nat) : Option (List (List Char)) :=
  if text = [] then some []
  else if smartFallback text max_chunk_size min_chunk_size then
    chunk_text_by_size text max_chunk_size 200 fuel
  else
    some (((chunk_by_paragraphs text max_chunk_size).map
      (fun c =>
        if (c.length : Int) > max_chunk_size then chunk_by_sentences c max_chunk_size
        else [c])).flatten)

/-- A metadata value: Python stores strings and ints in the mapping. -/
inductive MetaVal where
  | s (v : List Char)
  | i (v : Int)
deriving DecidableEq

/-- The langchain `Document` shape the chunker reads and produces. -/
structure Doc where
  page_content : List Char
  metadata : List (String × MetaVal)
deriving DecidableEq

/-- Python `dict` update of one key: replace in place when present,
append otherwise. -/
def setKey (m : List (String × MetaVal)) (k : String) (v : MetaVal) :
    List (String × MetaVal) :=
  if m.any (fun p => p.1 = k) then
    m.map (fun p => if p.1 = k then (k, v) else p)
  else m ++ [(k, v)]

/-- Python `dict` lookup: the value of the first (unique) entry for a key. -/
def lookupMeta (m : List (String × MetaVal)) (k : String) : Option MetaVal :=
  (m.find? (fun p => decide (p.1 = k))).map (fun p => p.2)

/-- The `new_metadata.update({...})` call of `chunk_document`
(lines 156-161 of `src/utils/chunker.py`). -/
def updateChunkMeta (m : List (String × MetaVal)) (chunk_id : Nat)
    (method : List Char) (chunk_size : Nat) (total_chunks : Nat) :
    List (String × MetaVal) :=
  setKey (setKey (setKey (setKey m "chunk_id" (MetaVal.i chunk_id))
    "chunk_method" (MetaVal.s method))
    "chunk_size" (MetaVal.i chunk_size))
    "total_chunks" (MetaVal.i total_chunks)

/-- `chunk_document` from `src/utils/chunker.py` (lines 133-168). -/
def chunk_document (document : Doc) (chunk_size overlap : Int) (method : String)
    (fuel : Nat) : Option (List Doc) :=
  if document.page_content = [] then some []
  else
    let text := document.page_content
    let chunksO :=
      if method = "sentences" then some (chunk_by_sentences text chunk_size)
      else if method = "words" then some (chunk_by_words text chunk_size)
      else if method = "paragraphs" then some (chunk_by_paragraphs text chunk_size)
      else chunk_text_by_size text chunk_size overlap fuel
    chunksO.map (fun chunks =>
      chunks.enum.filterMap (fun ic =>
        if pyStrip ic.2 ≠ [] then
          some (Doc.mk (pyStrip ic.2)
            (updateChunkMeta document.metadata ic.1 method.data ic.2.length
              chunks.length))
        else none))

/-- A chunk is good when it is non-empty and has no leading or trailing
whitespace; such chunks are fixed by `pyStrip` and survive every
truthiness filter in the source. -/
def goodChunk (c : List Char) : Bool :=
  match c.head?, c.getLast? with
  | some a, some b => !isSpace a && !isSpace b
  | _, _ => false

theorem goodChunk_eq_true_iff (c : List Char) : goodChunk c = true ↔
    ∃ a b, c.head? = some a ∧ c.getLast? = some b ∧
      isSpace a = false ∧ isSpace b = false := by
  cases hh : c.head? with
  | none => simp [goodChunk, hh]
  | some a =>
    cases hg : c.getLast? with
    | none => simp [goodChunk, hh, hg]
    | some b => simp [goodChunk, hh, hg, Bool.and_eq_true, Bool.not_eq_true']

theorem goodChunk_ne_nil {c : List Char} (h : goodChunk c = true) : c ≠ [] := by
  obtain ⟨a, b, hh, -, -, -⟩ := (goodChunk_eq_true_iff c).1 h
  intro hc
  rw [hc] at hh
  exact Option.noConfusion hh

theorem dropWhile_eq_self_of_head {p : Char → Bool} {l : List Char}
    (h : ∀ a, l.head? = some a → p a = false) : l.dropWhile p = l := by
  cases l with
  | nil => rfl
  | cons c cs =>
    have hc : p c = false := h c rfl
    simp [List.dropWhile_cons, hc]

theorem goodChunk_pyStrip_eq {c : List Char} (h : goodChunk c = true) :
    pyStrip c = c := by
  obtain ⟨a, b, hh, hg, ha, hb⟩ := (goodChunk_eq_true_iff c).1 h
  unfold pyStrip
  have h1 : c.dropWhile isSpace = c :=
    dropWhile_eq_self_of_head (fun x hx => by rw [hh] at hx; cases hx; exact ha)
  have h2 : c.reverse.dropWhile isSpace = c.reverse :=
    dropWhile_eq_self_of_head (fun x hx => by
      rw [List.head?_reverse, hg] at hx; cases hx; exact hb)
  rw [h1, h2, List.reverse_reverse]

theorem getLast?_of_suffix {x y : List Char} (h : x <:+ y) (hx : x ≠ []) :
    y.getLast? = x.getLast? := by
  obtain ⟨t, rfl⟩ := h
  rw [List.getLast?_append]
  cases hg : x.getLast? with
  | none => exact absurd (List.getLast?_eq_none_iff.1 hg) hx
  | some b => rfl

theorem goodChunk_pyStrip {c : List Char} (h : pyStrip c ≠ []) :
    goodChunk (pyStrip c) = true := by
  rw [goodChunk_eq_true_iff]
  unfold pyStrip at h ⊢
  set X := c.dropWhile isSpace with hX
  set Y := X.reverse.dropWhile isSpace with hY
  have hYne : Y ≠ [] := by
    intro h0
    rw [h0] at h
    exact h rfl
  have hXrne : X.reverse ≠ [] := by
    intro h0
    rw [hY, h0] at hYne
    exact hYne rfl
  have hXne : X ≠ [] := by
    intro h0
    rw [h0] at hXrne
    exact hXrne rfl
  have hhead : Y.reverse.head? = X.head? := by
    rw [List.head?_reverse, ← getLast?_of_suffix (List.dropWhile_suffix isSpace) hYne,
      List.getLast?_reverse]
  have hlast : Y.reverse.getLast? = Y.head? := List.getLast?_reverse Y
  refine ⟨X.head hXne, Y.head hYne, ?_, ?_, ?_, ?_⟩
  · rw [hhead]
    exact List.head?_eq_head hXne
  · rw [hlast]
    exact List.head?_eq_head hYne
  · have := List.head_dropWhile_not isSpace c
    exact this hXne
  · have := List.head_dropWhile_not isSpace X.reverse
    exact this hYne

theorem goodChunk_of_all_nonspace {w : List Char} (hne : w ≠ [])
    (hall : ∀ ch ∈ w, isSpace ch = false) : goodChunk w = true := by
  rw [goodChunk_eq_true_iff]
  exact ⟨w.head hne, w.getLast hne, List.head?_eq_head hne,
    List.getLast?_eq_getLast w hne, hall _ (List.head_mem hne),
    hall _ (List.getLast_mem hne)⟩

theorem goodChunk_append {a m : List Char}
    (ha : ∃ x, a.head? = some x ∧ isSpace x = false)
    (hm : ∃ y, m.getLast? = some y ∧ isSpace y = false) :
    goodChunk (a ++ m) = true := by
  obtain ⟨x, hx, hxs⟩ := ha
  obtain ⟨y, hy, hys⟩ := hm
  rw [goodChunk_eq_true_iff]
  refine ⟨x, y, ?_, ?_, hxs, hys⟩
  · rw [List.head?_append, hx]
    rfl
  · rw [List.getLast?_append, hy]
    rfl

theorem goodChunk_head {c : List Char} (h : goodChunk c = true) :
    ∃ x, c.head? = some x ∧ isSpace x = false := by
  obtain ⟨a, b, hh, hg, ha, hb⟩ := (goodChunk_eq_true_iff c).1 h
  exact ⟨a, hh, ha⟩

theorem goodChunk_last {c : List Char} (h : goodChunk c = true) :
    ∃ y, c.getLast? = some y ∧ isSpace y = false := by
  obtain ⟨a, b, hh, hg, ha, hb⟩ := (goodChunk_eq_true_iff c).1 h
  exact ⟨b, hg, hb⟩

theorem goodChunk_join {a b : List Char} (sep : List Char)
    (ha : goodChunk a = true) (hb : goodChunk b = true) :
    goodChunk (a ++ (sep ++ b)) = true := by
  refine goodChunk_append (goodChunk_head ha) ?_
  obtain ⟨y, hy, hys⟩ := goodChunk_last hb
  refine ⟨y, ?_, hys⟩
  rw [List.getLast?_append, hy]
  rfl

theorem wsSplitAux_tokens :
    ∀ (l acc : List Char), (∀ ch ∈ acc, isSpace ch = false) →
      ∀ w ∈ wsSplitAux acc l, w ≠ [] ∧ ∀ ch ∈ w, isSpace ch = false := by
  intro l
  induction l with
  | nil =>
    intro acc hacc w hw
    by_cases h : acc = []
    · simp [wsSplitAux, h] at hw
    · simp only [wsSplitAux, if_neg h, List.mem_singleton] at hw
      subst hw
      constructor
      · simpa using h
      · intro ch hch
        exact hacc ch (List.mem_reverse.1 hch)
  | cons c cs ih =>
    intro acc hacc w hw
    by_cases hc : isSpace c = true
    · by_cases h : acc = []
      · rw [wsSplitAux, if_pos hc, if_pos h] at hw
        exact ih [] (by intro ch hch; cases hch) w hw
      · rw [wsSplitAux, if_pos hc, if_neg h] at hw
        rcases List.mem_cons.1 hw with hw1 | hw2
        · subst hw1
          exact ⟨by simpa using h, fun ch hch => hacc ch (List.mem_reverse.1 hch)⟩
        · exact ih [] (by intro ch hch; cases hch) w hw2
    · rw [wsSplitAux, if_neg hc] at hw
      refine ih (c :: acc) ?_ w hw
      intro ch hch
      rcases List.mem_cons.1 hch with h1 | h2
      · subst h1
        simpa using hc
      · exact hacc ch h2

theorem wsSplit_tokens (s : List Char) :
    ∀ w ∈ wsSplit s, w ≠ [] ∧ ∀ ch ∈ w, isSpace ch = false :=
  wsSplitAux_tokens s [] (by intro ch hch; cases hch)

theorem goodChunk_of_wsSplit {s w : List Char} (hw : w ∈ wsSplit s) :
    goodChunk w = true := by
  obtain ⟨hne, hall⟩ := wsSplit_tokens s w hw
  exact goodChunk_of_all_nonspace hne hall

theorem goodChunk_of_stripFilter {L : List (List Char)} {s : List Char}
    (hs : s ∈ (L.map pyStrip).filter (· ≠ [])) : goodChunk s = true := by
  obtain ⟨hmem, hprop⟩ := List.mem_filter.1 hs
  obtain ⟨frag, -, rfl⟩ := List.mem_map.1 hmem
  exact goodChunk_pyStrip (by simpa using hprop)

theorem foldl_inv {α σ : Type} (P : σ → Prop) (f : σ → α → σ) :
    ∀ (l : List α) (init : σ), P init →
      (∀ st a, a ∈ l → P st → P (f st a)) → P (l.foldl f init)
  | [], _, h0, _ => h0
  | a :: l, init, h0, hstep =>
    foldl_inv P f l (f init a) (hstep init a (List.mem_cons_self a l) h0)
      (fun st b hb hst => hstep st b (List.mem_cons_of_mem a hb) hst)

theorem joinSep_good (sep : List Char) :
    ∀ ws, ws ≠ [] → (∀ w ∈ ws, goodChunk w = true) →
      goodChunk (joinSep sep ws) = true
  | [], h, _ => absurd rfl h
  | [w], _, hall => by
    rw [joinSep]
    exact hall w (List.mem_singleton.2 rfl)
  | w :: w2 :: ws, _, hall => by
    have hrec : goodChunk (joinSep sep (w2 :: ws)) = true :=
      joinSep_good sep (w2 :: ws) (by simp)
        (fun x hx => hall x (List.mem_cons_of_mem w hx))
    have hw : goodChunk w = true := hall w (List.mem_cons_self w (w2 :: ws))
    have h0 : joinSep sep (w :: w2 :: ws) = w ++ sep ++ joinSep sep (w2 :: ws) := rfl
    rw [h0, List.append_assoc]
    exact goodChunk_join sep hw hrec

theorem chunk_by_words_good (text : List Char) (m : Int) :
    ∀ c ∈ chunk_by_words text m, goodChunk c = true := by
  intro c hc
  by_cases ht : text = []
  · simp [chunk_by_words, ht] at hc
  · simp only [chunk_by_words, if_neg ht] at hc
    set F := (wsSplit text).foldl (wordStep m) ([], [], 0) with hF
    have hinv : (∀ x ∈ F.1, goodChunk x = true) ∧
        (∀ w ∈ F.2.1, w ≠ [] ∧ ∀ ch ∈ w, isSpace ch = false) := by
      refine foldl_inv
        (fun st => (∀ x ∈ st.1, goodChunk x = true) ∧
          (∀ w ∈ st.2.1, w ≠ [] ∧ ∀ ch ∈ w, isSpace ch = false))
        (wordStep m) (wsSplit text) ([], [], 0) ⟨by simp, by simp⟩ ?_
      intro st a ha hst
      obtain ⟨chunks, cur, size⟩ := st
      obtain ⟨hch, hcur⟩ := hst
      obtain ⟨hane, hanos⟩ := wsSplit_tokens text a ha
      simp only [wordStep]
      split_ifs with hov hcne
      · refine ⟨?_, ?_⟩
        · intro x hx
          rcases List.mem_append.1 hx with h | h
          · exact hch x h
          · rw [List.mem_singleton.1 h]
            exact joinSep_good [' '] cur hcne
              (fun w hw => goodChunk_of_all_nonspace (hcur w hw).1 (hcur w hw).2)
        · intro w hw
          rw [List.mem_singleton.1 hw]
          exact ⟨hane, hanos⟩
      · refine ⟨?_, hcur⟩
        intro x hx
        rcases List.mem_append.1 hx with h | h
        · exact hch x h
        · rw [List.mem_singleton.1 h]
          exact goodChunk_of_all_nonspace hane hanos
      · refine ⟨hch, ?_⟩
        intro w hw
        rcases List.mem_append.1 hw with h | h
        · exact hcur w h
        · rw [List.mem_singleton.1 h]
          exact ⟨hane, hanos⟩
    by_cases hfe : F.2.1 ≠ []
    · rw [if_pos hfe] at hc
      rcases List.mem_append.1 hc with h | h
      · exact hinv.1 c h
      · rw [List.mem_singleton.1 h]
        exact joinSep_good [' '] F.2.1 hfe
          (fun w hw => goodChunk_of_all_nonspace (hinv.2 w hw).1 (hinv.2 w hw).2)
    · rw [if_neg hfe] at hc
      exact hinv.1 c hc

theorem chunk_by_sentences_good (text : List Char) (m : Int) :
    ∀ c ∈ chunk_by_sentences text m, goodChunk c = true := by
  intro c hc
  by_cases ht : text = []
  · simp [chunk_by_sentences, ht] at hc
  · simp only [chunk_by_sentences, if_neg ht] at hc
    set F := (((sentSplit text).map pyStrip).filter (· ≠ [])).foldl (sentStep m) ([], []) with hF
    have hinv : (∀ x ∈ F.1, goodChunk x = true) ∧
        (F.2 = [] ∨ goodChunk F.2 = true) := by
      refine foldl_inv
        (fun st => (∀ x ∈ st.1, goodChunk x = true) ∧
          (st.2 = [] ∨ goodChunk st.2 = true))
        (sentStep m) _ ([], []) ⟨by simp, Or.inl rfl⟩ ?_
      intro st a ha hst
      obtain ⟨chunks, cur⟩ := st
      obtain ⟨hch, hcur⟩ := hst
      have hag : goodChunk a = true := goodChunk_of_stripFilter ha
      simp only [sentStep]
      split_ifs with hov hcne hbig hcne2
      · have hcg : goodChunk cur = true := hcur.resolve_left hcne
        refine ⟨?_, Or.inr hag⟩
        intro x hx
        rcases List.mem_append.1 hx with h | h
        · exact hch x h
        · rw [List.mem_singleton.1 h, goodChunk_pyStrip_eq hcg]
          exact hcg
      · refine ⟨?_, hcur⟩
        intro x hx
        rcases List.mem_append.1 hx with h | h
        · exact hch x h
        · exact chunk_by_words_good a m x h
      · refine ⟨?_, hcur⟩
        intro x hx
        rcases List.mem_append.1 hx with h | h
        · exact hch x h
        · rw [List.mem_singleton.1 h]
          exact hag
      · have hcg : goodChunk cur = true := hcur.resolve_left hcne2
        exact ⟨hch, Or.inr (goodChunk_join ['.', ' '] hcg hag)⟩
      · exact ⟨hch, Or.inr hag⟩
    by_cases hfe : F.2 ≠ []
    · rw [if_pos hfe] at hc
      rcases List.mem_append.1 hc with h | h
      · exact hinv.1 c h
      · have hcg : goodChunk F.2 = true := hinv.2.resolve_left hfe
        rw [List.mem_singleton.1 h, goodChunk_pyStrip_eq hcg]
        exact hcg
    · rw [if_neg hfe] at hc
      exact hinv.1 c hc

theorem chunk_by_paragraphs_good (text : List Char) (m : Int) :
    ∀ c ∈ chunk_by_paragraphs text m, goodChunk c = true := by
  intro c hc
  by_cases ht : text = []
  · simp [chunk_by_paragraphs, ht] at hc
  · simp only [chunk_by_paragraphs, if_neg ht] at hc
    set F := (((paraSplit text).map pyStrip).filter (· ≠ [])).foldl (paraStep m) ([], []) with hF
    have hinv : (∀ x ∈ F.1, goodChunk x = true) ∧
        (F.2 = [] ∨ goodChunk F.2 = true) := by
      refine foldl_inv
        (fun st => (∀ x ∈ st.1, goodChunk x = true) ∧
          (st.2 = [] ∨ goodChunk st.2 = true))
        (paraStep m) _ ([], []) ⟨by simp, Or.inl rfl⟩ ?_
      intro st a ha hst
      obtain ⟨chunks, cur⟩ := st
      obtain ⟨hch, hcur⟩ := hst
      have hag : goodChunk a = true := goodChunk_of_stripFilter ha
      simp only [paraStep]
      split_ifs with hov hcne hbig hcne2
      · have hcg : goodChunk cur = true := hcur.resolve_left hcne
        refine ⟨?_, Or.inr hag⟩
        intro x hx
        rcases List.mem_append.1 hx with h | h
        · exact hch x h
        · rw [List.mem_singleton.1 h, goodChunk_pyStrip_eq hcg]
          exact hcg
      · refine ⟨?_, hcur⟩
        intro x hx
        rcases List.mem_append.1 hx with h | h
        · exact hch x h
        · exact chunk_by_sentences_good a m x h
      · refine ⟨?_, hcur⟩
        intro x hx
        rcases List.mem_append.1 hx with h | h
        · exact hch x h
        · rw [List.mem_singleton.1 h]
          exact hag
      · have hcg : goodChunk cur = true := hcur.resolve_left hcne2
        exact ⟨hch, Or.inr (goodChunk_join ['\n', '\n'] hcg hag)⟩
      · exact ⟨hch, Or.inr hag⟩
    by_cases hfe : F.2 ≠ []
    · rw [if_pos hfe] at hc
      rcases List.mem_append.1 hc with h | h
      · exact hinv.1 c h
      · have hcg : goodChunk F.2 = true := hinv.2.resolve_left hfe
        rw [List.mem_singleton.1 h, goodChunk_pyStrip_eq hcg]
        exact hcg
    · rw [if_neg hfe] at hc
      exact hinv.1 c hc

theorem sizeLoop_strip (text : List Char) (cs ov : Int) :
    ∀ (fuel : Nat) (start : Int) (l : List (List Char)),
      sizeLoop text cs ov fuel start = some l → ∀ c ∈ l, ∃ x, c = pyStrip x := by
  intro fuel
  induction fuel with
  | zero =>
    intro start l h
    exact absurd h (by simp [sizeLoop])
  | succ f ih =>
    intro start l h
    simp only [sizeLoop] at h
    split at h
    · split at h <;> split at h
      all_goals first
      | · rw [Option.some_inj] at h
          intro c hc
          rw [← h] at hc
          rw [List.mem_singleton.1 hc]
          exact ⟨_, rfl⟩
      | · rw [Option.map_eq_some'] at h
          obtain ⟨l0, hl0, rfl⟩ := h
          intro c hc
          rcases List.mem_cons.1 hc with h1 | h2
          · rw [h1]
            exact ⟨_, rfl⟩
          · exact ih _ l0 hl0 c h2
    · rw [Option.some_inj] at h
      intro c hc
      rw [← h] at hc
      cases hc

theorem chunk_text_by_size_good (text : List Char) (cs ov : Int) (fuel : Nat)
    (r : List (List Char)) (h : chunk_text_by_size text cs ov fuel = some r) :
    ∀ c ∈ r, goodChunk c = true := by
  unfold chunk_text_by_size at h
  split at h
  · rw [Option.some_inj] at h
    intro c hc
    rw [← h] at hc
    cases hc
  · rw [Option.map_eq_some'] at h
    obtain ⟨l0, hl0, rfl⟩ := h
    intro c hc
    obtain ⟨hmem, hne⟩ := List.mem_filter.1 hc
    obtain ⟨x, rfl⟩ := sizeLoop_strip text cs ov fuel 0 l0 hl0 c hmem
    exact goodChunk_pyStrip (by simpa using hne)

theorem smart_chunking_good (text : List Char) (ms mis : Int) (fuel : Nat)
    (r : List (List Char)) (h : smart_chunking text ms mis fuel = some r) :
    ∀ c ∈ r, goodChunk c = true := by
  unfold smart_chunking at h
  split at h
  · rw [Option.some_inj] at h
    intro c hc
    rw [← h] at hc
    cases hc
  · split at h
    · exact chunk_text_by_size_good text ms 200 fuel r h
    · rw [Option.some_inj] at h
      intro c hc
      rw [← h] at hc
      obtain ⟨block, hblock, hcb⟩ := List.mem_flatten.1 hc
      obtain ⟨p, hp, rfl⟩ := List.mem_map.1 hblock
      by_cases hbig : (p.length : Int) > ms
      · rw [if_pos hbig] at hcb
        exact chunk_by_sentences_good p ms c hcb
      · rw [if_neg hbig] at hcb
        rw [List.mem_singleton.1 hcb]
        exact chunk_by_paragraphs_good text ms p hp

theorem lookupMeta_map_self {k : String} {v : MetaVal} :
    ∀ m : List (String × MetaVal), (m.any fun p => decide (p.1 = k)) = true →
      lookupMeta (m.map fun p => if p.1 = k then (k, v) else p) k = some v := by
  intro m
  induction m with
  | nil =>
    intro h
    cases h
  | cons p m ih =>
    intro hany
    by_cases hp : p.1 = k
    · unfold lookupMeta
      rw [List.map_cons, if_pos hp, List.find?_cons_of_pos _ (by simp)]
      rfl
    · unfold lookupMeta at ih ⊢
      rw [List.map_cons, if_neg hp, List.find?_cons_of_neg _ (by simpa using hp)]
      refine ih ?_
      rcases List.any_eq_true.1 hany with ⟨q, hq, hqk⟩
      rcases List.mem_cons.1 hq with h1 | hq2
      · exact absurd (h1 ▸ (of_decide_eq_true hqk)) hp
      · exact List.any_eq_true.2 ⟨q, hq2, hqk⟩

theorem lookupMeta_map_ne {k k' : String} {v : MetaVal} (hkk : k' ≠ k) :
    ∀ m : List (String × MetaVal),
      lookupMeta (m.map fun p => if p.1 = k then (k, v) else p) k' = lookupMeta m k' := by
  intro m
  induction m with
  | nil => rfl
  | cons p m ih =>
    by_cases hp : p.1 = k
    · unfold lookupMeta at ih ⊢
      rw [List.map_cons, if_pos hp,
        List.find?_cons_of_neg _ (by simp [Ne.symm hkk]),
        List.find?_cons_of_neg _ (by simp [hp, Ne.symm hkk])]
      exact ih
    · unfold lookupMeta at ih ⊢
      rw [List.map_cons, if_neg hp]
      by_cases hpk : p.1 = k'
      · rw [List.find?_cons_of_pos _ (by simp [hpk]),
          List.find?_cons_of_pos _ (by simp [hpk])]
      · rw [List.find?_cons_of_neg _ (by simp [hpk]),
          List.find?_cons_of_neg _ (by simp [hpk])]
        exact ih

theorem lookupMeta_append_self {k : String} {v : MetaVal}
    (m : List (String × MetaVal)) (h : (m.any fun p => decide (p.1 = k)) = false) :
    lookupMeta (m ++ [(k, v)]) k = some v := by
  unfold lookupMeta
  rw [List.find?_append]
  have hnone : m.find? (fun p => decide (p.1 = k)) = none := by
    rw [List.find?_eq_none]
    intro x hx hpx
    have h2 : (m.any fun p => decide (p.1 = k)) = true :=
      List.any_eq_true.2 ⟨x, hx, hpx⟩
    rw [h] at h2
    cases h2
  rw [hnone, Option.none_or, List.find?_cons_of_pos _ (by simp)]
  rfl

theorem lookupMeta_append_ne {k k' : String} {v : MetaVal} (hkk : k' ≠ k)
    (m : List (String × MetaVal)) :
    lookupMeta (m ++ [(k, v)]) k' = lookupMeta m k' := by
  unfold lookupMeta
  rw [List.find?_append]
  have h1 : List.find? (fun p => decide (p.1 = k')) [(k, v)] = none := by
    rw [List.find?_eq_none]
    intro x hx hpx
    rw [List.mem_singleton.1 hx] at hpx
    exact Ne.symm hkk (of_decide_eq_true hpx)
  rw [h1, Option.or_none]

theorem lookupMeta_setKey_self (m : List (String × MetaVal)) (k : String) (v : MetaVal) :
    lookupMeta (setKey m k v) k = some v := by
  unfold setKey
  split_ifs with hany
  · exact lookupMeta_map_self m hany
  · simp only [Bool.not_eq_true] at hany
    exact lookupMeta_append_self m hany

theorem lookupMeta_setKey_ne (m : List (String × MetaVal)) (k : String) (v : MetaVal)
    (k' : String) (hkk : k' ≠ k) :
    lookupMeta (setKey m k v) k' = lookupMeta m k' := by
  unfold setKey
  split_ifs with hany
  · exact lookupMeta_map_ne hkk m
  · exact lookupMeta_append_ne hkk m

theorem lookup_update_total (m : List (String × MetaVal)) (i : Nat) (method : List Char)
    (sz tot : Nat) :
    lookupMeta (updateChunkMeta m i method sz tot) "total_chunks" = some (MetaVal.i tot) := by
  unfold updateChunkMeta
  exact lookupMeta_setKey_self _ _ _

theorem lookup_update_size (m : List (String × MetaVal)) (i : Nat) (method : List Char)
    (sz tot : Nat) :
    lookupMeta (updateChunkMeta m i method sz tot) "chunk_size" = some (MetaVal.i sz) := by
  unfold updateChunkMeta
  rw [lookupMeta_setKey_ne _ _ _ _ (by decide)]
  exact lookupMeta_setKey_self _ _ _

theorem lookup_update_id (m : List (String × MetaVal)) (i : Nat) (method : List Char)
    (sz tot : Nat) :
    lookupMeta (updateChunkMeta m i method sz tot) "chunk_id" = some (MetaVal.i i) := by
  unfold updateChunkMeta
  rw [lookupMeta_setKey_ne _ _ _ _ (by decide), lookupMeta_setKey_ne _ _ _ _ (by decide),
    lookupMeta_setKey_ne _ _ _ _ (by decide)]
  exact lookupMeta_setKey_self _ _ _

theorem filterMap_if_eq_map {α β : Type} (q : α → Prop) [DecidablePred q] (g : α → β) :
    ∀ l : List α, (∀ x ∈ l, q x) →
      (l.filterMap fun x => if q x then some (g x) else none) = l.map g := by
  intro l
  induction l with
  | nil =>
    intro _
    rfl
  | cons a l ih =>
    intro h
    rw [List.filterMap_cons_some (by rw [if_pos (h a (List.mem_cons_self a l))]),
      List.map_cons, ih (fun x hx => h x (List.mem_cons_of_mem a hx))]

theorem mem_of_mem_enum {α : Type} {l : List α} {ic : Nat × α} (h : ic ∈ l.enum) :
    ic.2 ∈ l := by
  rw [List.enum_eq_zip_range] at h
  have h2 : (ic.1, ic.2) ∈ (List.range l.length).zip l := by
    exact h
  exact (List.of_mem_zip h2).2

theorem chunk_document_eq (document : Doc) (chunk_size overlap : Int) (method : String)
    (fuel : Nat) (docs : List Doc)
    (h : chunk_document document chunk_size overlap method fuel = some docs) :
    ∃ chunks : List (List Char), (∀ c ∈ chunks, goodChunk c = true) ∧
      docs = chunks.enum.map (fun ic =>
        Doc.mk (pyStrip ic.2)
          (updateChunkMeta document.metadata ic.1 method.data ic.2.length
            chunks.length)) := by
  unfold chunk_document at h
  split at h
  · refine ⟨[], by simp, ?_⟩
    rw [Option.some_inj] at h
    rw [← h]
    rfl
  · rw [Option.map_eq_some'] at h
    obtain ⟨chunks, hchunks, rfl⟩ := h
    have hgood : ∀ c ∈ chunks, goodChunk c = true := by
      by_cases h1 : method = "sentences"
      · rw [if_pos h1, Option.some_inj] at hchunks
        rw [← hchunks]
        exact chunk_by_sentences_good _ _
      · rw [if_neg h1] at hchunks
        by_cases h2 : method = "words"
        · rw [if_pos h2, Option.some_inj] at hchunks
          rw [← hchunks]
          exact chunk_by_words_good _ _
        · rw [if_neg h2] at hchunks
          by_cases h3 : method = "paragraphs"
          · rw [if_pos h3, Option.some_inj] at hchunks
            rw [← hchunks]
            exact chunk_by_paragraphs_good _ _
          · rw [if_neg h3] at hchunks
            exact chunk_text_by_size_good _ _ _ _ _ hchunks
    refine ⟨chunks, hgood, ?_⟩
    refine filterMap_if_eq_map (fun ic : Nat × List Char => pyStrip ic.2 ≠ []) _ _ ?_
    intro ic hic
    have hg : goodChunk ic.2 = true := hgood ic.2 (mem_of_mem_enum hic)
    rw [goodChunk_pyStrip_eq hg]
    exact goodChunk_ne_nil hg

theorem sizeLoop_abc_stuck : ∀ fuel : Nat, sizeLoop (chars "abc") 1 1 fuel 1 = none := by
  intro fuel
  induction fuel with
  | zero => rfl
  | succ f ih =>
    have h : sizeLoop (chars "abc") 1 1 (f + 1) 1 =
        (sizeLoop (chars "abc") 1 1 f 1).map
          (List.cons (pyStrip (pySlice (chars "abc") 1 2))) := rfl
    rw [h, ih]
    rfl

/-- Claim C1: the spec demands that with `overlap ≥ chunk_size ≥ 1` the
fixed-size strategy still terminates with a non-repeating window sequence,
thanks to the forced-progress guard.  The code's guard only fires when the
new start is `≤ 0`, so on the text "abc" with `chunk_size = 1` and
`overlap = 1` the start pointer is stuck at 1 forever and the loop never
terminates: the embedded loop returns `none` for every amount of fuel. -/
theorem C1_size_loop_diverges :
    ∀ fuel : Nat, chunk_text_by_size (chars "abc") 1 1 fuel = none := by
  intro fuel
  cases fuel with
  | zero => rfl
  | succ f =>
    have h : chunk_text_by_size (chars "abc") 1 1 (f + 1) =
        ((sizeLoop (chars "abc") 1 1 f 1).map
          (List.cons (pyStrip (pySlice (chars "abc") 0 1)))).map
            (List.filter (· ≠ [])) := rfl
    rw [h, sizeLoop_abc_stuck f]
    rfl

/-- Counterexample to claim C2: the paragraph-bounded pass packs the three
tiny paragraphs of "p1\n\np2\n\np3" into a single chunk, so the
more-than-one-chunk condition of the fallback test is false and
`smart_chunking` does not fall back to fixed-size chunking. -/
theorem C2_counterexample :
    (chunk_by_paragraphs (chars "p1\n\np2\n\np3") 1000).length = 1 ∧
    smartFallback (chars "p1\n\np2\n\np3") 1000 100 = false := by decide

/-- Claim C2 amended: on "p1\n\np2\n\np3" with `max_chunk_size = 1000` and
`min_chunk_size = 100` the paragraph pass returns the single 12-character
chunk "p1\n\np2\n\np3", the fallback test fails, and `smart_chunking`
returns that chunk unchanged (for every amount of fuel, since the
fixed-size fallback is never entered). -/
theorem C2_smart_keeps_single_paragraph_chunk :
    ∀ fuel : Nat,
      smart_chunking (chars "p1\n\np2\n\np3") 1000 100 fuel =
        some [chars "p1\n\np2\n\np3"] :=
  fun _ => rfl

/-- Counterexample to claim C3: the output is not `["A", "B", "C"]`. -/
theorem C3_counterexample :
    chunk_by_sentences (chars "A. B. C.") 5 ≠ [chars "A", chars "B", chars "C"] := by
  decide

/-- Claim C3 amended: `chunk_by_sentences "A. B. C." 5` returns
`["A. B", "C"]`: the check `1+1+1 ≤ 5` lets "B" join "A" (producing the
4-character "A. B"), and only adding "C" (`4+1+1 > 5`) flushes. -/
theorem C3_sentences_example :
    chunk_by_sentences (chars "A. B. C.") 5 = [chars "A. B", chars "C"] := by decide

/-- Counterexample to claim C4: with `max_chunk_size = 4` the oversized
sentence "cd ef gh" (length 8) is emitted whole by `chunk_by_sentences`,
and the oversized paragraph "bb cc dd" is emitted whole by
`chunk_by_paragraphs` — neither is spliced via the finer strategy. -/
theorem C4_counterexample :
    ((chars "cd ef gh").length : Int) > 4 ∧
    chars "cd ef gh" ∈ chunk_by_sentences (chars "ab. cd ef gh. x") 4 ∧
    ((chars "bb cc dd").length : Int) > 4 ∧
    chars "bb cc dd" ∈ chunk_by_paragraphs (chars "aa\n\nbb cc dd\n\nx") 4 := by
  decide

/-- Claim C4 amended: an oversized sentence is split via `chunk_by_words`
and spliced in place only when the running accumulator is empty at the
moment it is processed; when the accumulator is non-empty, the accumulator
is flushed and the oversized sentence becomes the new accumulator (to be
emitted whole later).  The paragraph strategy behaves the same way with
`chunk_by_sentences`. -/
theorem C4_splice_only_on_empty_accumulator (m : Int) (chunks : List (List Char))
    (s : List Char) (hbig : (s.length : Int) > m) :
    sentStep m (chunks, []) s = (chunks ++ chunk_by_words s m, []) ∧
    (∀ cur, cur ≠ [] → sentStep m (chunks, cur) s = (chunks ++ [pyStrip cur], s)) ∧
    paraStep m (chunks, []) s = (chunks ++ chunk_by_sentences s m, []) ∧
    (∀ cur, cur ≠ [] → paraStep m (chunks, cur) s = (chunks ++ [pyStrip cur], s)) := by
  refine ⟨?_, ?_, ?_, ?_⟩
  · simp only [sentStep]
    rw [if_pos (by simp only [List.length_nil]; omega), if_neg (by simp), if_pos hbig]
  · intro cur hcur
    simp only [sentStep]
    rw [if_pos (by have := Int.natCast_nonneg cur.length; omega), if_pos hcur]
  · simp only [paraStep]
    rw [if_pos (by simp only [List.length_nil]; omega), if_neg (by simp), if_pos hbig]
  · intro cur hcur
    simp only [paraStep]
    rw [if_pos (by have := Int.natCast_nonneg cur.length; omega), if_pos hcur]

/-- Witness for the amended claim C4 at `max_chunk_size = 4`, oversized
unit "cd ef gh" and non-empty accumulator "ab". -/
theorem C4_witness :
    sentStep 4 ([], []) (chars "cd ef gh") =
      ([] ++ chunk_by_words (chars "cd ef gh") 4, []) ∧
    sentStep 4 ([], chars "ab") (chars "cd ef gh") =
      ([] ++ [pyStrip (chars "ab")], chars "cd ef gh") ∧
    paraStep 4 ([], []) (chars "cd ef gh") =
      ([] ++ chunk_by_sentences (chars "cd ef gh") 4, []) ∧
    paraStep 4 ([], chars "ab") (chars "cd ef gh") =
      ([] ++ [pyStrip (chars "ab")], chars "cd ef gh") := by
  have h := C4_splice_only_on_empty_accumulator 4 [] (chars "cd ef gh") (by decide)
  exact ⟨h.1, h.2.1 (chars "ab") (by decide), h.2.2.1, h.2.2.2 (chars "ab") (by decide)⟩

/-- Counterexample to claim C5: with `max_chunk_size = 0` the word-bounded
strategy returns `["A"]`, not the empty sequence. -/
theorem C5_counterexample :
    (0 : Int) ≤ 0 ∧ chunk_by_words (chars "A") 0 = [chars "A"] ∧
    chunk_by_words (chars "A") 0 ≠ [] := by decide

/-- Claim C5 amended: only the fixed-size strategy returns the empty
sequence on a non-positive size; the sentence-, word- and
paragraph-bounded strategies are total but may emit atomic units as
chunks even then. -/
theorem C5_size_empty_on_nonpositive (text : List Char) (chunk_size overlap : Int)
    (fuel : Nat) (h : chunk_size ≤ 0) :
    chunk_text_by_size text chunk_size overlap fuel = some [] := by
  unfold chunk_text_by_size
  rw [if_pos (Or.inr h)]

/-- Witness for the amended claim C5 at `chunk_size = 0`. -/
theorem C5_witness : chunk_text_by_size (chars "xy") 0 7 3 = some [] :=
  C5_size_empty_on_nonpositive (chars "xy") 0 7 3 (by decide)

/-- Counterexample to claim C6: three short non-whitespace inputs, each
shorter than the configured maximum, for which the sentence-, word- and
paragraph-bounded strategies do not return the single trimmed input (the
sentence strategy even splits "a.b.c.d" in two). -/
theorem C6_counterexample :
    chars "a.b.c.d" ≠ [] ∧ ((chars "a.b.c.d").length : Int) < 8 ∧
    chunk_by_sentences (chars "a.b.c.d") 8 ≠ [pyStrip (chars "a.b.c.d")] ∧
    chars "a  b" ≠ [] ∧ ((chars "a  b").length : Int) < 10 ∧
    chunk_by_words (chars "a  b") 10 ≠ [pyStrip (chars "a  b")] ∧
    chars "a\n \nb" ≠ [] ∧ ((chars "a\n \nb").length : Int) < 10 ∧
    chunk_by_paragraphs (chars "a\n \nb") 10 ≠ [pyStrip (chars "a\n \nb")] := by
  decide

/-- Claim C6 amended: for the fixed-size strategy the property holds: a
text that is not whitespace-only and shorter than `chunk_size` yields
exactly one chunk equal to the trimmed input.  The other strategies may
split the text or rewrite its separators. -/
theorem C6_size_single_chunk (text : List Char) (chunk_size overlap : Int)
    (fuel : Nat) (hne : pyStrip text ≠ []) (hlen : (text.length : Int) < chunk_size)
    (hfuel : 1 ≤ fuel) :
    chunk_text_by_size text chunk_size overlap fuel = some [pyStrip text] := by
  have htne : text ≠ [] := by
    intro h0
    rw [h0] at hne
    exact hne rfl
  have hlen0 : 0 < text.length := List.length_pos.2 htne
  unfold chunk_text_by_size
  rw [if_neg (by push_neg; exact ⟨htne, by omega⟩)]
  obtain ⟨f, rfl⟩ : ∃ f, fuel = f + 1 := ⟨fuel - 1, by omega⟩
  simp only [sizeLoop]
  rw [if_pos (show (0 : Int) < (text.length : Int) by omega)]
  have he : (if (0 : Int) + chunk_size > (text.length : Int) then ((text.length : Int))
      else 0 + chunk_size) = (text.length : Int) := if_pos (by omega)
  rw [he, if_pos rfl]
  have hslice : pySlice text 0 ((text.length : Int)) = text := by
    unfold pySlice
    simp [Int.toNat_ofNat]
  rw [hslice, Option.map_some']
  simp [List.filter_cons, hne]

/-- Witness for the amended claim C6 on the two-character text "hi". -/
theorem C6_witness : chunk_text_by_size (chars "hi") 5 2 1 = some [pyStrip (chars "hi")] :=
  C6_size_single_chunk (chars "hi") 5 2 1 (by decide) (by decide) (by decide)

/-- Claim C7: whenever `chunk_document` returns `k` chunk documents, each
carries `total_chunks = k` and the `chunk_id` values are exactly
`0, 1, ..., k-1` in order. -/
theorem C7_ids_and_total (document : Doc) (chunk_size overlap : Int) (method : String)
    (fuel : Nat) (docs : List Doc)
    (h : chunk_document document chunk_size overlap method fuel = some docs) :
    (∀ d ∈ docs, lookupMeta d.metadata "total_chunks" = some (MetaVal.i docs.length)) ∧
    docs.map (fun d => lookupMeta d.metadata "chunk_id") =
      (List.range docs.length).map (fun i : Nat => some (MetaVal.i (i : Int))) := by
  obtain ⟨chunks, hgood, rfl⟩ :=
    chunk_document_eq document chunk_size overlap method fuel docs h
  constructor
  · intro d hd
    simp only [List.length_map, List.enum_length]
    obtain ⟨ic, hic, rfl⟩ := List.mem_map.1 hd
    exact lookup_update_total _ _ _ _ _
  · simp only [List.length_map, List.enum_length, List.map_map]
    rw [List.map_congr_left (fun ic _ => lookup_update_id document.metadata ic.1
      method.data ic.2.length chunks.length)]
    have hsplit : (fun ic : Nat × List Char => some (MetaVal.i ic.1)) =
        (fun i : Nat => some (MetaVal.i (i : Int))) ∘ Prod.fst := rfl
    rw [hsplit, ← List.map_map, List.enum_map_fst]

/-- Witness for claim C7 on a one-chunk document. -/
theorem C7_witness :
    (∀ d ∈ (chunk_document (Doc.mk (chars "hi") []) 10 2 "words" 0).getD [],
      lookupMeta d.metadata "total_chunks" =
        some (MetaVal.i ((chunk_document (Doc.mk (chars "hi") []) 10 2 "words" 0).getD []).length)) ∧
    ((chunk_document (Doc.mk (chars "hi") []) 10 2 "words" 0).getD []).map
        (fun d => lookupMeta d.metadata "chunk_id") =
      (List.range ((chunk_document (Doc.mk (chars "hi") []) 10 2 "words" 0).getD []).length).map
        (fun i : Nat => some (MetaVal.i (i : Int))) :=
  C7_ids_and_total (Doc.mk (chars "hi") []) 10 2 "words" 0 _ rfl

/-- Claim C8: every chunk document carries `chunk_size` metadata equal to
the length of its own (trimmed) `page_content`: the strategies only hand
`chunk_document` already-trimmed chunks, so `len(chunk)` taken before the
final strip equals the stored content's length. -/
theorem C8_chunk_size_matches (document : Doc) (chunk_size overlap : Int)
    (method : String) (fuel : Nat) (docs : List Doc)
    (h : chunk_document document chunk_size overlap method fuel = some docs) :
    ∀ d ∈ docs,
      lookupMeta d.metadata "chunk_size" = some (MetaVal.i d.page_content.length) := by
  obtain ⟨chunks, hgood, rfl⟩ :=
    chunk_document_eq document chunk_size overlap method fuel docs h
  intro d hd
  obtain ⟨ic, hic, rfl⟩ := List.mem_map.1 hd
  have hg : goodChunk ic.2 = true := hgood ic.2 (mem_of_mem_enum hic)
  rw [goodChunk_pyStrip_eq hg]
  exact lookup_update_size _ _ _ _ _

/-- Witness for claim C8 on the single chunk document produced from the
text "ok go" by the sentence strategy. -/
theorem C8_witness :
    lookupMeta (updateChunkMeta [] 0 (chars "sentences") 5 1) "chunk_size" =
      some (MetaVal.i 5) :=
  C8_chunk_size_matches (Doc.mk (chars "ok go") []) 9 2 "sentences" 0
    [Doc.mk (chars "ok go") (updateChunkMeta [] 0 (chars "sentences") 5 1)] (by decide)
    (Doc.mk (chars "ok go") (updateChunkMeta [] 0 (chars "sentences") 5 1))
    (List.mem_singleton.2 rfl)

/-- Claim C9: for every strategy (fixed-size, sentence-, word- and
paragraph-bounded, and the adaptive smart strategy) and every input, no
returned chunk is empty or whitespace-only (`pyStrip c ≠ []` states
exactly that). -/
theorem C9_no_empty_or_whitespace_chunks :
    (∀ (text : List Char) (m : Int), ∀ c ∈ chunk_by_sentences text m, pyStrip c ≠ []) ∧
    (∀ (text : List Char) (m : Int), ∀ c ∈ chunk_by_words text m, pyStrip c ≠ []) ∧
    (∀ (text : List Char) (m : Int), ∀ c ∈ chunk_by_paragraphs text m, pyStrip c ≠ []) ∧
    (∀ (text : List Char) (cs ov : Int) (fuel : Nat) (r : List (List Char)),
      chunk_text_by_size text cs ov fuel = some r → ∀ c ∈ r, pyStrip c ≠ []) ∧
    (∀ (text : List Char) (ms mis : Int) (fuel : Nat) (r : List (List Char)),
      smart_chunking text ms mis fuel = some r → ∀ c ∈ r, pyStrip c ≠ []) := by
  have key : ∀ c : List Char, goodChunk c = true → pyStrip c ≠ [] := by
    intro c hg
    rw [goodChunk_pyStrip_eq hg]
    exact goodChunk_ne_nil hg
  exact ⟨fun t m c hc => key c (chunk_by_sentences_good t m c hc),
    fun t m c hc => key c (chunk_by_words_good t m c hc),
    fun t m c hc => key c (chunk_by_paragraphs_good t m c hc),
    fun t cs ov f r hr c hc => key c (chunk_text_by_size_good t cs ov f r hr c hc),
    fun t ms mis f r hr c hc => key c (smart_chunking_good t ms mis f r hr c hc)⟩

/-- Witness for claim C9: each of the five strategies applied to a
concrete input. -/
theorem C9_witness :
    pyStrip (chars "a") ≠ [] ∧ pyStrip (chars "b") ≠ [] ∧ pyStrip (chars "c") ≠ [] ∧
    pyStrip (chars "d") ≠ [] ∧ pyStrip (chars "e") ≠ [] := by
  refine ⟨?_, ?_, ?_, ?_, ?_⟩
  · exact C9_no_empty_or_whitespace_chunks.1 (chars "a") 5 (chars "a") (by decide)
  · exact C9_no_empty_or_whitespace_chunks.2.1 (chars "b") 5 (chars "b") (by decide)
  · exact C9_no_empty_or_whitespace_chunks.2.2.1 (chars "c") 5 (chars "c") (by decide)
  · exact C9_no_empty_or_whitespace_chunks.2.2.2.1 (chars "d") 5 2 3 [chars "d"]
      (by decide) (chars "d") (by decide)
  · exact C9_no_empty_or_whitespace_chunks.2.2.2.2 (chars "e") 5 2 3 [chars "e"]
      (by decide) (chars "e") (by decide)

/-- Claim C10: the sentence packer's overflow check charges only one
character per join while the actual ". " separator adds two, so the text
"ab.cd" with `max_chunk_size = 5` — whose sentences "ab" and "cd" are both
shorter than 5 — is packed into the single chunk "ab. cd" of length
`5 + 1`. -/
theorem C10_separator_undercount :
    (((sentSplit (chars "ab.cd")).map pyStrip).filter (· ≠ [])).all
      (fun s => decide ((s.length : Int) < 5)) = true ∧
    chunk_by_sentences (chars "ab.cd") 5 = [chars "ab. cd"] ∧
    ((chars "ab. cd").length : Int) = 5 + 1 := by decide

